import Mathlib

/-!
Verification of the encoded source-map decoder and query engine
(`src/encoded-map.ts`).

The embedding models the flat `Uint32Array` buffer as a `List Nat` whose
entries are the stored unsigned 32-bit values (reductions modulo `2^32`
are written explicitly where the typed array stores a value).  Strings are
scanned as `List Char`; the main decode loop carries fuel equal to the
input length plus one, which is enough because every iteration of the
source loop consumes at least one character.
-/

namespace TraceMapping

def U32 : Nat := 4294967296

def U31 : Nat := 2147483648

def ITEM_LENGTH : Nat := 5

/-- The 65-character table used to build `base64Index` (the trailing `=` is
present in the source string, so it gets index 64). -/
def base64Chars : List Char :=
  "ABCDEFGHIJKLMNOPQRSTUVWXYZabcdefghijklmnopqrstuvwxyz0123456789+/=".toList

/-- Value of `base64Index[c]`: the table is a zero-initialized `Uint8Array`,
so characters outside the table (and out-of-range reads) give 0. -/
def base64IndexVal (c : Char) : Nat :=
  let i := base64Chars.indexOf c
  if i < 65 then i else 0

/-- The do-while loop of `decodeInteger`: reads base-64 digits, ORing each
digit's low 5 bits into `value` at the current shift, while bit 32 of the
digit is set.  Reading past the end of the string yields digit 0 (in the
source, `charCodeAt` returns NaN and the table read is `undefined`, so both
masks are 0), which stops the loop with `value` unchanged. -/
def decodeIntegerGo : List Char → Nat → Nat → Nat × List Char
  | [], value, _ => (value, [])
  | c :: cs, value, shift =>
    let integer := base64IndexVal c
    let value := value ||| ((((integer &&& 31) <<< (shift % 32))) % U32)
    if integer &&& 32 ≠ 0 then decodeIntegerGo cs value (shift + 5) else (value, cs)

/-- The sign-processing tail of `decodeInteger`, returning the unsigned
32-bit pattern that `state[index] = value` stores: `value & 1` is the sign
flag, the rest is shifted right once, and a set flag yields the pattern of
`-0x80000000 | -value`. -/
def vlqStore (value : Nat) : Nat :=
  let shouldNegate := value &&& 1
  let value := value >>> 1
  if shouldNegate ≠ 0 then U31 ||| ((U32 - value) % U32) else value

/-- `decodeInteger`: one VLQ value, returned as the stored 32-bit pattern
together with the unconsumed rest of the input. -/
def decodeInteger (cs : List Char) : Nat × List Char :=
  let r := decodeIntegerGo cs 0 0
  (vlqStore r.1, r.2)

/-- Signed reading of a stored 32-bit pattern (how an `Int32` consumer sees
the value produced by `decodeInteger`). -/
def toInt32 (p : Nat) : Int :=
  if p < U31 then (p : Int) else (p : Int) - (U32 : Int)

/-- The decoded VLQ value of a digit run, read as a signed 32-bit integer. -/
def decodeIntegerValue (cs : List Char) : Int :=
  toInt32 (decodeInteger cs).1

def hasMoreMappings : List Char → Bool
  | [] => false
  | c :: _ => c ≠ ',' && c ≠ ';'

/-- The scan of `isSorted` from index `i` (the source starts at
`start + ITEM_LENGTH` and compares each record's column with the previous
record's).  The first argument is structural gas, always instantiated to at
least `e - i`, so the recursion mirrors the `i += ITEM_LENGTH` loop. -/
def isSortedGo (state : List Nat) : Nat → Nat → Nat → Bool
  | 0, _, _ => true
  | gas + 1, i, e =>
    if i < e then
      if state.getD i 0 < state.getD (i - 5) 0 then false
      else isSortedGo state gas (i + 5) e
    else true

def isSorted (state : List Nat) (s e : Nat) : Bool :=
  isSortedGo state (e - (s + 5) + 1) (s + 5) e

/-- Starting offsets of the records visited by `for (i = start; i < end;
i += ITEM_LENGTH)`. -/
def recordStarts (s e : Nat) : List Nat :=
  (List.range ((e - s + 4) / 5)).map (fun k => s + 5 * k)

/-- Write `vals` into the list starting at `pos` (the in-range case of
`state.set(vals, pos)` on a typed array). -/
def writeAt (l : List Nat) (pos : Nat) (vals : List Nat) : List Nat :=
  l.take pos ++ vals ++ l.drop (pos + vals.length)

/-- The write-back loop of `maybeSort`: segment `i` goes to
`start + i * ITEM_LENGTH`. -/
def writeBack : List Nat → Nat → List (List Nat) → List Nat
  | st, _, [] => st
  | st, pos, seg :: rest => writeBack (writeAt st pos seg) (pos + ITEM_LENGTH) rest

/-- `maybeSort` of the source.  Note the extraction loop pushes
`state.slice(start, start + ITEM_LENGTH)` on every iteration — the loop
variable is not used in the slice — so each extracted segment is a copy of
the line's first record.  The sort itself is the engine's stable sort with
comparator `a[0] - b[0]`, modelled as a stable insertion sort on the first
field. -/
def maybeSort (state : List Nat) (s e : Nat) : List Nat :=
  if isSorted state s e then state
  else
    let segments := (recordStarts s e).map (fun _ => (state.drop s).take ITEM_LENGTH)
    let segments := List.insertionSort (fun a b => a.getD 0 0 ≤ b.getD 0 0) segments
    writeBack state s segments

structure DecodeState where
  generatedColumn : Nat
  sourcesIndex : Nat
  sourceLine : Nat
  sourceColumn : Nat
  namesIndex : Nat
  buffer : List Nat
  lines : List Nat
  lastLineStart : Nat
deriving Repr, DecidableEq

/-- One pass of the main loop of `decode`.  Accumulators are exact natural
numbers (each `acc = decoded[count++] += acc` reads back the stored 32-bit
pattern of the delta and adds it to the accumulator without conversion; the
typed-array slot itself keeps the sum reduced modulo `2^32`). -/
def decodeGo : Nat → List Char → DecodeState → DecodeState
  | 0, _, st => st
  | _ + 1, [], st => st
  | fuel + 1, c :: cs, st =>
    if c = ',' then decodeGo fuel cs st
    else if c = ';' then
      decodeGo fuel cs
        { st with
          generatedColumn := 0,
          lines := st.lines ++ [st.buffer.length],
          buffer := maybeSort st.buffer st.lastLineStart st.buffer.length,
          lastLineStart := st.buffer.length }
    else
      let p1 := decodeInteger (c :: cs)
      let generatedColumn := p1.1 + st.generatedColumn
      if hasMoreMappings p1.2 = false then
        decodeGo fuel p1.2
          { st with
            generatedColumn := generatedColumn,
            buffer := st.buffer ++ [generatedColumn % U32, 0, 0, 0, 0] }
      else
        let p2 := decodeInteger p1.2
        let sourcesIndex := p2.1 + st.sourcesIndex
        let p3 := decodeInteger p2.2
        let sourceLine := p3.1 + st.sourceLine
        let p4 := decodeInteger p3.2
        let sourceColumn := p4.1 + st.sourceColumn
        if hasMoreMappings p4.2 = false then
          decodeGo fuel p4.2
            { st with
              generatedColumn := generatedColumn, sourcesIndex := sourcesIndex,
              sourceLine := sourceLine, sourceColumn := sourceColumn,
              buffer := st.buffer ++
                [generatedColumn % U32, sourcesIndex % U32, sourceLine % U32,
                 sourceColumn % U32, 0] }
        else
          let p5 := decodeInteger p4.2
          let namesIndex := p5.1 + st.namesIndex
          decodeGo fuel p5.2
            { st with
              generatedColumn := generatedColumn, sourcesIndex := sourcesIndex,
              sourceLine := sourceLine, sourceColumn := sourceColumn,
              namesIndex := namesIndex,
              buffer := st.buffer ++
                [generatedColumn % U32, sourcesIndex % U32, sourceLine % U32,
                 sourceColumn % U32, namesIndex % U32] }

def initialDecodeState : DecodeState :=
  { generatedColumn := 0, sourcesIndex := 1, sourceLine := 1, sourceColumn := 1,
    namesIndex := 1, buffer := [], lines := [0], lastLineStart := 0 }

/-- `decode(encoded, lines)`: returns the flat buffer and the line-offset
table (the source seeds `lines` with 0, then after the loop pushes the final
count and sorts the last line). -/
def decode (encoded : String) : List Nat × List Nat :=
  let st := decodeGo (encoded.toList.length + 1) encoded.toList initialDecodeState
  (maybeSort st.buffer st.lastLineStart st.buffer.length, st.lines ++ [st.buffer.length])

structure EncodedMap where
  _mappings : List Nat
  _lineIndices : List Nat
deriving Repr, DecidableEq

/-- Construction of `EncodedSourceMapImpl`: decode the mapping string into
the flat buffer and the line-offset table. -/
def mkMap (encoded : String) : EncodedMap :=
  ⟨(decode encoded).1, (decode encoded).2⟩

/-- `segmentify`: materialize the record at offset `i` with the minimal
arity given by the 0 absence sentinels, subtracting the +1 bias from the
present fields 1–4.  The subtraction is exact integer subtraction on the
stored unsigned values, as in the source (plain number arithmetic): a
present field whose stored value is 0 — reachable when a biased delta
accumulator wraps around 2^32 — materializes as `-1`. -/
def segmentify (mappings : List Nat) (i : Nat) : List Int :=
  if mappings.getD (i + 1) 0 = 0 then [(mappings.getD i 0 : Int)]
  else if mappings.getD (i + 4) 0 = 0 then
    [(mappings.getD i 0 : Int), (mappings.getD (i + 1) 0 : Int) - 1,
     (mappings.getD (i + 2) 0 : Int) - 1, (mappings.getD (i + 3) 0 : Int) - 1]
  else
    [(mappings.getD i 0 : Int), (mappings.getD (i + 1) 0 : Int) - 1,
     (mappings.getD (i + 2) 0 : Int) - 1, (mappings.getD (i + 3) 0 : Int) - 1,
     (mappings.getD (i + 4) 0 : Int) - 1]

/-- The loop of `decodedMappings`: `i` walks the buffer record by record,
and the inner `while (i === lineIndex)` (here the first branch) closes the
current line each time `i` reaches the next line-offset entry. -/
def decLoopGo (mappings lineIndices : List Nat) :
    Nat → Nat → Nat → List (List (List Int)) → List (List Int) →
    List (List (List Int))
  | 0, _, _, decoded, line => decoded ++ [line]
  | gas + 1, i, idx, decoded, line =>
    if i < mappings.length then
      if lineIndices[idx]? = some i then
        decLoopGo mappings lineIndices gas i (idx + 1) (decoded ++ [line]) []
      else
        decLoopGo mappings lineIndices gas (i + ITEM_LENGTH) idx decoded
          (line ++ [segmentify mappings i])
    else decoded ++ [line]

def decodedMappings (m : EncodedMap) : List (List (List Int)) :=
  decLoopGo m._mappings m._lineIndices
    (m._mappings.length + m._lineIndices.length + 1) 0 1 [] []

structure SearchState where
  _lastIndex : Int
  _lastLine : Nat
  _lastColumn : Nat
deriving Repr, DecidableEq

def initialSearchState : SearchState := ⟨0, 0, 0⟩

/-- Rightmost scan used to model the search: walks offsets `i, i + 5, …`
below `e` and remembers the last one whose stored generated column is at
most `col`; returns the fallback `best` (the callers pass `-1`) when none
qualifies. -/
def searchGo (m : List Nat) (col : Nat) : Nat → Nat → Nat → Int → Int
  | 0, _, _, best => best
  | gas + 1, i, e, best =>
    if i < e then
      searchGo m col gas (i + 5) e (if m.getD i 0 ≤ col then (i : Int) else best)
    else best

def searchFrom (m : List Nat) (col : Nat) (i e : Nat) (best : Int) : Int :=
  searchGo m col (e - i) i e best

/-- Modelled from the spec: `memoizedBinarySearch` lives in the repository's
`binary-search.ts`, which is imported by `encoded-map.ts` but is not among
the provided sources.  Per the spec it finds the rightmost record in
`[low, high]` whose generated column is ≤ the needle (negative when none
qualifies), starts the search at-or-after the cached index when the query
is for the cached line with a column ≥ the cached column, and rewrites the
cache with the new line, column and result on every call.  `high` is the
inclusive bound `lineIndices[line + 1] - 1` passed by `traceSegment`. -/
def memoizedBinarySearch (haystack : List Nat) (needle : Nat) (low : Nat)
    (high : Int) (st : SearchState) (line : Nat) : Int × SearchState :=
  let e := (high + 1).toNat
  let found :=
    if line = st._lastLine ∧ st._lastColumn ≤ needle then
      let start := if st._lastIndex < (low : Int) then low else st._lastIndex.toNat
      searchFrom haystack needle start e (-1)
    else searchFrom haystack needle low e (-1)
  (found, ⟨found, line, needle⟩)

/-- `traceSegment`: out-of-range lines report not-found before any search
(and leave the cursor untouched); otherwise the memoized search runs over
the line's record range and a negative result reports not-found.  The
function is total: every outcome is a returned value, never a failure. -/
def traceSegment (m : EncodedMap) (st : SearchState) (line column : Nat) :
    Option (List Int) × SearchState :=
  if m._lineIndices.length - 1 ≤ line then (none, st)
  else
    let r := memoizedBinarySearch m._mappings column (m._lineIndices.getD line 0)
      ((m._lineIndices.getD (line + 1) 0 : Int) - 1) st line
    if r.1 < 0 then (none, r.2) else (some (segmentify m._mappings r.1.toNat), r.2)

/-- The memoization-free variant: a full search over the line's record
range on every call, ignoring and not touching any cursor. -/
def traceSegmentScratch (m : EncodedMap) (line column : Nat) : Option (List Int) :=
  if m._lineIndices.length - 1 ≤ line then none
  else
    let idx := searchFrom m._mappings column (m._lineIndices.getD line 0)
      (m._lineIndices.getD (line + 1) 0) (-1)
    if idx < 0 then none else some (segmentify m._mappings idx.toNat)

/-- Run a sequence of queries through the stateful `traceSegment`,
threading the cursor. -/
def runMemoized (m : EncodedMap) : SearchState → List (Nat × Nat) → List (Option (List Int))
  | _, [] => []
  | st, q :: qs =>
    let r := traceSegment m st q.1 q.2
    r.1 :: runMemoized m r.2 qs

/-- Char consumption mirror of `decodeGo` that only counts the `;`
separators handled by the main loop (the number of generated lines observed
is this count plus one). -/
def countLinesGo : Nat → List Char → Nat
  | 0, _ => 0
  | _ + 1, [] => 0
  | fuel + 1, c :: cs =>
    if c = ',' then countLinesGo fuel cs
    else if c = ';' then 1 + countLinesGo fuel cs
    else
      let p1 := decodeInteger (c :: cs)
      if hasMoreMappings p1.2 = false then countLinesGo fuel p1.2
      else
        let p4 := (decodeInteger (decodeInteger (decodeInteger p1.2).2).2)
        if hasMoreMappings p4.2 = false then countLinesGo fuel p4.2
        else countLinesGo fuel (decodeInteger p4.2).2

/-- Number of `;` separators processed by `decode` on this input. -/
def countSemis (encoded : String) : Nat :=
  countLinesGo (encoded.toList.length + 1) encoded.toList

/-! ### Generic list-index helpers -/

lemma getD_append_left {l l2 : List Nat} {i : Nat} (h : i < l.length) (d : Nat) :
    (l ++ l2).getD i d = l.getD i d := by
  simp [List.getD_eq_getElem?_getD, List.getElem?_append, h]

lemma getD_eq_of_take_eq {l l2 : List Nat} {n i : Nat} (h : l.take n = l2.take n)
    (hi : i < n) (d : Nat) : l.getD i d = l2.getD i d := by
  have h1 : (l.take n)[i]? = l[i]? := by simp [List.getElem?_take, hi]
  have h2 : (l2.take n)[i]? = l2[i]? := by simp [List.getElem?_take, hi]
  simp only [List.getD_eq_getElem?_getD, ← h1, ← h2, h]

/-! ### Characterization of the record search

`searchGo`/`searchFrom` return the rightmost visited offset whose stored
generated column is at most the queried column, or the fallback when no
visited offset qualifies.  Offsets visited from `i` below `e` are exactly
`i + 5 * k` for `i + 5 * k < e`. -/

lemma searchGo_spec (m : List Nat) (col : Nat) :
    ∀ gas i e best, e - i ≤ gas →
      (searchGo m col gas i e best = best ∧
        ∀ k, i + 5 * k < e → col < m.getD (i + 5 * k) 0) ∨
      (∃ k, i + 5 * k < e ∧ m.getD (i + 5 * k) 0 ≤ col ∧
        searchGo m col gas i e best = ((i + 5 * k : Nat) : Int) ∧
        ∀ j, i + 5 * j < e → m.getD (i + 5 * j) 0 ≤ col → j ≤ k) := by
  intro gas
  induction gas with
  | zero =>
    intro i e best hg
    left
    exact ⟨rfl, fun k hk => absurd hk (by omega)⟩
  | succ gas ih =>
    intro i e best hg
    by_cases hie : i < e
    · have hrec : searchGo m col (gas + 1) i e best
          = searchGo m col gas (i + 5) e (if m.getD i 0 ≤ col then (i : Int) else best) := by
        simp [searchGo, hie]
      have hg2 : e - (i + 5) ≤ gas := by omega
      rcases ih (i + 5) e (if m.getD i 0 ≤ col then (i : Int) else best) hg2 with
        ⟨hres, hnone⟩ | ⟨k, hk, hqual, hres, hmax⟩
      · by_cases hq : m.getD i 0 ≤ col
        · right
          refine ⟨0, by omega, by simpa using hq, ?_, ?_⟩
          · rw [hrec, hres, if_pos hq]
            norm_num
          · intro j hj hjq
            by_contra hlt
            have hj1 : (i + 5) + 5 * (j - 1) < e := by omega
            have hidx : (i + 5) + 5 * (j - 1) = i + 5 * j := by omega
            have := hnone (j - 1) hj1
            rw [hidx] at this
            omega
        · left
          constructor
          · rw [hrec, hres, if_neg hq]
          · intro k hk
            rcases Nat.eq_zero_or_pos k with hk0 | hkpos
            · subst hk0; simpa using Nat.lt_of_not_le hq
            · have hj1 : (i + 5) + 5 * (k - 1) < e := by omega
              have hidx : (i + 5) + 5 * (k - 1) = i + 5 * k := by omega
              have := hnone (k - 1) hj1
              rwa [hidx] at this
      · right
        refine ⟨k + 1, by omega, ?_, ?_, ?_⟩
        · have hidx : (i + 5) + 5 * k = i + 5 * (k + 1) := by omega
          rwa [hidx] at hqual
        · rw [hrec, hres]
          congr 1
          omega
        · intro j hj hjq
          rcases Nat.eq_zero_or_pos j with hj0 | hjpos
          · omega
          · have hj1 : (i + 5) + 5 * (j - 1) < e := by omega
            have hidx : (i + 5) + 5 * (j - 1) = i + 5 * j := by omega
            have := hmax (j - 1) hj1 (by rwa [hidx])
            omega
    · left
      constructor
      · cases gas <;> simp [searchGo, hie]
      · intro k hk; omega

lemma searchFrom_spec (m : List Nat) (col i e : Nat) (best : Int) :
    (searchFrom m col i e best = best ∧
      ∀ k, i + 5 * k < e → col < m.getD (i + 5 * k) 0) ∨
    (∃ k, i + 5 * k < e ∧ m.getD (i + 5 * k) 0 ≤ col ∧
      searchFrom m col i e best = ((i + 5 * k : Nat) : Int) ∧
      ∀ j, i + 5 * j < e → m.getD (i + 5 * j) 0 ≤ col → j ≤ k) :=
  searchGo_spec m col (e - i) i e best (Nat.le_refl _)

/-- Starting the scan at a qualifying aligned offset does not change the
result: the rightmost qualifying offset is at or after any qualifying
offset. -/
lemma searchFrom_shift (m : List Nat) (col low e k0 : Nat)
    (hq : m.getD (low + 5 * k0) 0 ≤ col) (hlt : low + 5 * k0 < e) :
    searchFrom m col (low + 5 * k0) e (-1) = searchFrom m col low e (-1) := by
  rcases searchFrom_spec m col low e (-1) with ⟨_, hnone⟩ | ⟨k, hk, hkq, hkres, hkmax⟩
  · exact absurd hq (by have := hnone k0 hlt; omega)
  · have hk0k : k0 ≤ k := hkmax k0 hlt hq
    rcases searchFrom_spec m col (low + 5 * k0) e (-1) with ⟨_, hnone2⟩ | ⟨j, hj, hjq, hjres, hjmax⟩
    · have hidx : (low + 5 * k0) + 5 * (k - k0) = low + 5 * k := by omega
      have := hnone2 (k - k0) (by omega)
      rw [hidx] at this
      omega
    · have hidx : (low + 5 * k0) + 5 * j = low + 5 * (k0 + j) := by omega
      have h1 : k0 + j ≤ k := by
        apply hkmax (k0 + j) (by omega)
        rwa [hidx] at hjq
      have h2 : k - k0 ≤ j := by
        apply hjmax (k - k0) (by omega)
        have hidx2 : (low + 5 * k0) + 5 * (k - k0) = low + 5 * k := by omega
        rwa [hidx2]
      rw [hjres, hkres]
      congr 1
      omega

/-! ### Sortedness of a line's record range -/

/-- Adjacent records in the half-open element range `[a, b)` (record stride
5) are non-decreasing by their first field, the stored generated column. -/
def AdjSorted (m : List Nat) (a b : Nat) : Prop :=
  ∀ k, a + 5 * k + 5 < b → m.getD (a + 5 * k) 0 ≤ m.getD (a + 5 * k + 5) 0

lemma isSortedGo_false_lt (state : List Nat) (gas i e : Nat)
    (h : isSortedGo state gas i e = false) : i < e := by
  cases gas with
  | zero => simp [isSortedGo] at h
  | succ gas =>
    by_contra hn
    simp [isSortedGo, hn] at h

lemma isSortedGo_true_pairs (state : List Nat) :
    ∀ gas i e, e ≤ i + gas → isSortedGo state gas i e = true →
      ∀ k, i + 5 * k < e →
        state.getD (i + 5 * k - 5) 0 ≤ state.getD (i + 5 * k) 0 := by
  intro gas
  induction gas with
  | zero =>
    intro i e hg _ k hk
    exact absurd hk (by omega)
  | succ gas ih =>
    intro i e hg htrue k hk
    have hunf : isSortedGo state (gas + 1) i e =
        if i < e then
          if state.getD i 0 < state.getD (i - 5) 0 then false
          else isSortedGo state gas (i + 5) e
        else true := rfl
    rw [hunf] at htrue
    by_cases hie : i < e
    · rw [if_pos hie] at htrue
      by_cases hcmp : state.getD i 0 < state.getD (i - 5) 0
      · rw [if_pos hcmp] at htrue
        exact absurd htrue (by simp)
      · rw [if_neg hcmp] at htrue
        have hrec : isSortedGo state gas (i + 5) e = true := htrue
        rcases Nat.eq_zero_or_pos k with hk0 | hkpos
        · subst hk0
          simpa using Nat.le_of_not_lt hcmp
        · have := ih (i + 5) e (by omega) hrec (k - 1) (by omega)
          have h1 : (i + 5) + 5 * (k - 1) = i + 5 * k := by omega
          rw [h1] at this
          exact this
    · exact absurd hk (by omega)

lemma isSorted_true_adj (state : List Nat) (s e : Nat)
    (h : isSorted state s e = true) : AdjSorted state s e := by
  intro k hk
  have := isSortedGo_true_pairs state (e - (s + 5) + 1) (s + 5) e (by omega) h k
    (by omega)
  have h1 : (s + 5) + 5 * k = s + 5 * k + 5 := by omega
  rw [h1] at this
  have h2 : s + 5 * k + 5 - 5 = s + 5 * k := by omega
  rw [h2] at this
  exact this

lemma isSorted_false_lt (state : List Nat) (s e : Nat)
    (h : isSorted state s e = false) : s + 5 < e :=
  isSortedGo_false_lt state _ _ _ h

/-! ### Write-back machinery of `maybeSort` -/

lemma writeAt_length (l : List Nat) (pos : Nat) (vals : List Nat)
    (h : pos + vals.length ≤ l.length) : (writeAt l pos vals).length = l.length := by
  simp only [writeAt, List.length_append, List.length_take, List.length_drop]
  omega

lemma writeAt_take (l : List Nat) (pos : Nat) (vals : List Nat) (s : Nat)
    (hs : s ≤ pos) (hp : pos ≤ l.length) : (writeAt l pos vals).take s = l.take s := by
  simp only [writeAt]
  rw [List.take_append_eq_append_take]
  have h1 : s - (l.take pos ++ vals).length = 0 := by simp; omega
  rw [h1, List.take_zero, List.append_nil]
  rw [List.take_append_eq_append_take]
  have h2 : s - (l.take pos).length = 0 := by simp; omega
  rw [h2, List.take_zero, List.append_nil, List.take_take]
  congr 1
  omega

lemma writeAt_getD_mid (l : List Nat) (pos : Nat) (vals : List Nat) (j : Nat)
    (hj : j < vals.length) (h : pos + vals.length ≤ l.length) :
    (writeAt l pos vals).getD (pos + j) 0 = vals.getD j 0 := by
  have hlen : (l.take pos).length = pos := by simp; omega
  simp only [writeAt, List.getD_eq_getElem?_getD, List.append_assoc, List.getElem?_append]
  rw [hlen]
  have h1 : ¬ (pos + j < pos) := by omega
  rw [if_neg h1]
  have h2 : pos + j - pos = j := by omega
  rw [h2, if_pos hj]

lemma writeBack_length : ∀ (segs : List (List Nat)) (pos : Nat) (l : List Nat),
    (∀ seg ∈ segs, seg.length = 5) → pos + 5 * segs.length ≤ l.length →
    (writeBack l pos segs).length = l.length := by
  intro segs
  induction segs with
  | nil => intro pos l _ _; rfl
  | cons seg rest ih =>
    intro pos l hlens hb
    have hseg : seg.length = 5 := hlens seg (by simp)
    have h1 : pos + seg.length ≤ l.length := by
      simp only [List.length_cons] at hb; omega
    have hw : (writeAt l pos seg).length = l.length := writeAt_length l pos seg h1
    have hb2 : (pos + 5) + 5 * rest.length ≤ (writeAt l pos seg).length := by
      rw [hw]
      simp only [List.length_cons] at hb
      omega
    simp only [writeBack, ITEM_LENGTH]
    rw [ih (pos + 5) _ (fun s hs => hlens s (by simp [hs])) hb2, hw]

lemma writeBack_take : ∀ (segs : List (List Nat)) (pos : Nat) (l : List Nat) (s : Nat),
    (∀ seg ∈ segs, seg.length = 5) → pos + 5 * segs.length ≤ l.length → s ≤ pos →
    (writeBack l pos segs).take s = l.take s := by
  intro segs
  induction segs with
  | nil => intro pos l s _ _ _; rfl
  | cons seg rest ih =>
    intro pos l s hlens hb hs
    have hseg : seg.length = 5 := hlens seg (by simp)
    have h1 : pos + seg.length ≤ l.length := by
      simp only [List.length_cons] at hb; omega
    have hw : (writeAt l pos seg).length = l.length := writeAt_length l pos seg h1
    have hb2 : (pos + 5) + 5 * rest.length ≤ (writeAt l pos seg).length := by
      rw [hw]
      simp only [List.length_cons] at hb
      omega
    simp only [writeBack, ITEM_LENGTH]
    rw [ih (pos + 5) _ s (fun x hx => hlens x (by simp [hx])) hb2 (by omega)]
    exact writeAt_take l pos seg s hs (by omega)

lemma writeBack_getD : ∀ (segs : List (List Nat)) (pos : Nat) (l : List Nat) (k j : Nat),
    (∀ seg ∈ segs, seg.length = 5) → pos + 5 * segs.length ≤ l.length →
    k < segs.length → j < 5 →
    (writeBack l pos segs).getD (pos + 5 * k + j) 0 = (segs.getD k []).getD j 0 := by
  intro segs
  induction segs with
  | nil => intro pos l k j _ _ hk _; exact absurd hk (by simp)
  | cons seg rest ih =>
    intro pos l k j hlens hb hk hj
    have hseg : seg.length = 5 := hlens seg (by simp)
    have h1 : pos + seg.length ≤ l.length := by
      simp [hseg, List.length_cons] at hb ⊢; omega
    have hwlen : (writeAt l pos seg).length = l.length := writeAt_length l pos seg h1
    have hb2 : (pos + 5) + 5 * rest.length ≤ (writeAt l pos seg).length := by
      rw [hwlen]
      simp [List.length_cons] at hb
      omega
    rcases Nat.eq_zero_or_pos k with hk0 | hkpos
    · subst hk0
      have htk : (writeBack (writeAt l pos seg) (pos + 5) rest).take (pos + 5)
          = (writeAt l pos seg).take (pos + 5) :=
        writeBack_take rest (pos + 5) _ (pos + 5)
          (fun x hx => hlens x (by simp [hx])) hb2 (le_refl _)
      simp only [writeBack, ITEM_LENGTH]
      rw [getD_eq_of_take_eq htk (by omega) 0]
      have hidx : pos + 5 * 0 + j = pos + j := by omega
      rw [hidx, writeAt_getD_mid l pos seg j (by omega) h1]
      simp
    · simp only [writeBack, ITEM_LENGTH]
      have hidx : pos + 5 * k + j = (pos + 5) + 5 * (k - 1) + j := by omega
      rw [hidx, ih (pos + 5) _ (k - 1) j (fun x hx => hlens x (by simp [hx])) hb2
        (by simp [List.length_cons] at hk ⊢; omega) hj]
      have : (seg :: rest).getD k [] = rest.getD (k - 1) [] := by
        rcases k with _ | k2
        · omega
        · simp [List.getD_cons_succ]
      rw [this]

/-! ### Behaviour of `maybeSort` -/

lemma map_const_eq_replicate {α β : Type} (l : List α) (x : β) :
    l.map (fun _ => x) = List.replicate l.length x := by
  induction l with
  | nil => rfl
  | cons a t ih => simp [List.replicate, ih]

lemma insertionSort_replicate {α : Type} (r : α → α → Prop) [DecidableRel r]
    (x : α) (hr : r x x) (n : Nat) :
    List.insertionSort r (List.replicate n x) = List.replicate n x := by
  induction n with
  | zero => rfl
  | succ n ih =>
    rw [List.replicate_succ, List.insertionSort, ih]
    cases n with
    | zero => rfl
    | succ n2 =>
      rw [List.replicate_succ, List.orderedInsert, if_pos hr, ← List.replicate_succ,
        ← List.replicate_succ]

lemma recordStarts_length (s e : Nat) : (recordStarts s e).length = (e - s + 4) / 5 := by
  simp [recordStarts]

/-- The unsorted branch of `maybeSort` writes back `n` copies of the line's
first record (the extraction bug), where `n` is the line's record count. -/
lemma maybeSort_unsorted_eq (state : List Nat) (s e : Nat)
    (hfalse : isSorted state s e = false) :
    maybeSort state s e =
      writeBack state s
        (List.replicate ((e - s + 4) / 5) ((state.drop s).take 5)) := by
  simp only [maybeSort, hfalse, Bool.false_eq_true, if_false, ITEM_LENGTH]
  rw [map_const_eq_replicate, recordStarts_length]
  rw [insertionSort_replicate (fun a b : List Nat => a.getD 0 0 ≤ b.getD 0 0) _
    (le_refl _)]

lemma seg0_length (state : List Nat) (s : Nat) (h : s + 5 ≤ state.length) :
    ((state.drop s).take 5).length = 5 := by
  simp
  omega

lemma maybeSort_length (state : List Nat) (s e : Nat) (hse : s ≤ e)
    (hdvd : 5 ∣ e - s) (hlen : e = state.length) :
    (maybeSort state s e).length = state.length := by
  by_cases hs : isSorted state s e
  · rw [maybeSort, if_pos hs]
  · rw [maybeSort_unsorted_eq state s e (by simpa using hs)]
    have hlt : s + 5 < e := isSorted_false_lt state s e (by simpa using hs)
    have h5 : ((state.drop s).take 5).length = 5 := seg0_length state s (by omega)
    apply writeBack_length
    · intro seg hseg
      rw [List.eq_of_mem_replicate hseg]
      exact h5
    · rw [List.length_replicate]
      omega

lemma maybeSort_take (state : List Nat) (s e : Nat) (hse : s ≤ e)
    (hdvd : 5 ∣ e - s) (hlen : e = state.length) :
    (maybeSort state s e).take s = state.take s := by
  by_cases hs : isSorted state s e
  · rw [maybeSort, if_pos hs]
  · rw [maybeSort_unsorted_eq state s e (by simpa using hs)]
    have hlt : s + 5 < e := isSorted_false_lt state s e (by simpa using hs)
    have h5 : ((state.drop s).take 5).length = 5 := seg0_length state s (by omega)
    apply writeBack_take
    · intro seg hseg
      rw [List.eq_of_mem_replicate hseg]
      exact h5
    · rw [List.length_replicate]
      omega
    · exact le_refl _

lemma maybeSort_adjSorted (state : List Nat) (s e : Nat) (hse : s ≤ e)
    (hdvd : 5 ∣ e - s) (hlen : e = state.length) :
    AdjSorted (maybeSort state s e) s e := by
  by_cases hs : isSorted state s e
  · rw [maybeSort, if_pos hs]
    exact isSorted_true_adj state s e hs
  · rw [maybeSort_unsorted_eq state s e (by simpa using hs)]
    have hlt : s + 5 < e := isSorted_false_lt state s e (by simpa using hs)
    have h5 : ((state.drop s).take 5).length = 5 := seg0_length state s (by omega)
    have hlens : ∀ seg ∈ List.replicate ((e - s + 4) / 5) ((state.drop s).take 5),
        seg.length = 5 := by
      intro seg hseg
      rw [List.eq_of_mem_replicate hseg]
      exact h5
    have hb : s + 5 * (List.replicate ((e - s + 4) / 5) ((state.drop s).take 5)).length
        ≤ state.length := by
      rw [List.length_replicate]
      omega
    intro k hk
    have hk1 : k < (e - s + 4) / 5 := by omega
    have hk2 : k + 1 < (e - s + 4) / 5 := by omega
    have hidx1 : s + 5 * k = s + 5 * k + 0 := by omega
    have e1 := writeBack_getD _ s state k 0 hlens hb
      (by rwa [List.length_replicate]) (by omega)
    have e2 := writeBack_getD _ s state (k + 1) 0 hlens hb
      (by rwa [List.length_replicate]) (by omega)
    have hidx2 : s + 5 * (k + 1) + 0 = s + 5 * k + 5 := by omega
    rw [hidx2] at e2
    have hidx3 : s + 5 * k + 0 = s + 5 * k := by omega
    rw [hidx3] at e1
    rw [e1, e2]
    have hx1 : (List.replicate ((e - s + 4) / 5) ((state.drop s).take 5)).getD k []
        = (state.drop s).take 5 := by
      rw [List.getD_eq_getElem?_getD, List.getElem?_replicate, if_pos hk1]
      rfl
    have hx2 : (List.replicate ((e - s + 4) / 5) ((state.drop s).take 5)).getD (k + 1) []
        = (state.drop s).take 5 := by
      rw [List.getD_eq_getElem?_getD, List.getElem?_replicate, if_pos hk2]
      rfl
    rw [hx1, hx2]

/-! ### Invariants established by `decode` -/

lemma chain'_mem_imp {R S : Nat → Nat → Prop} :
    ∀ {l : List Nat}, List.Chain' R l →
      (∀ a ∈ l, ∀ b ∈ l, R a b → S a b) → List.Chain' S l := by
  intro l
  induction l with
  | nil => intro _ _; exact List.chain'_nil
  | cons a t ih =>
    intro h hmem
    cases t with
    | nil => exact List.chain'_singleton a
    | cons b t2 =>
      rw [List.chain'_cons] at h ⊢
      refine ⟨hmem a (by simp) b (by simp) h.1, ih h.2 ?_⟩
      intro x hx y hy hr
      exact hmem x (by simp [hx]) y (by simp [hy]) hr

lemma adjSorted_mono (m m2 : List Nat) (a b : Nat)
    (h : ∀ i, i < b → m2.getD i 0 = m.getD i 0) :
    AdjSorted m a b → AdjSorted m2 a b := by
  intro hadj k hk
  rw [h _ (by omega), h _ (by omega)]
  exact hadj k hk

/-- Invariant tying the flat buffer, the line-offset table and the start of
the currently open line together, maintained throughout `decode`. -/
def BufInv (buffer lines : List Nat) (lls : Nat) : Prop :=
  lines.head? = some 0 ∧
  lines.getLast? = some lls ∧
  List.Chain' (fun a b => a ≤ b ∧ AdjSorted buffer a b) lines ∧
  (∀ x ∈ lines, x % 5 = 0 ∧ x ≤ lls) ∧
  lls ≤ buffer.length ∧
  lls % 5 = 0 ∧
  buffer.length % 5 = 0

def StInv (st : DecodeState) : Prop := BufInv st.buffer st.lines st.lastLineStart

lemma bufInv_append {buffer lines : List Nat} {lls : Nat}
    (h : BufInv buffer lines lls) (xs : List Nat) (hxs : xs.length % 5 = 0) :
    BufInv (buffer ++ xs) lines lls := by
  obtain ⟨h1, h2, h3, h4, h5, h6, h7⟩ := h
  refine ⟨h1, h2, ?_, h4, by simp; omega, h6, by simp; omega⟩
  apply chain'_mem_imp h3
  intro a _ b hb hr
  refine ⟨hr.1, adjSorted_mono buffer (buffer ++ xs) a b ?_ hr.2⟩
  intro i hi
  have hble : b ≤ lls := (h4 b hb).2
  exact getD_append_left (by omega) 0

lemma bufInv_close {buffer lines : List Nat} {lls : Nat}
    (h : BufInv buffer lines lls) :
    BufInv (maybeSort buffer lls buffer.length) (lines ++ [buffer.length])
      buffer.length := by
  obtain ⟨h1, h2, h3, h4, h5, h6, h7⟩ := h
  have hdvd : 5 ∣ buffer.length - lls := by omega
  have hlen : (maybeSort buffer lls buffer.length).length = buffer.length :=
    maybeSort_length buffer lls buffer.length h5 hdvd rfl
  have htake : (maybeSort buffer lls buffer.length).take lls = buffer.take lls :=
    maybeSort_take buffer lls buffer.length h5 hdvd rfl
  have hadj : AdjSorted (maybeSort buffer lls buffer.length) lls buffer.length :=
    maybeSort_adjSorted buffer lls buffer.length h5 hdvd rfl
  refine ⟨?_, ?_, ?_, ?_, ?_, ?_, ?_⟩
  · cases lines with
    | nil => simp at h1
    | cons a t => simpa using h1
  · exact List.getLast?_concat _
  · refine List.chain'_append.mpr ⟨?_, List.chain'_singleton _, ?_⟩
    · apply chain'_mem_imp h3
      intro a _ b hb hr
      refine ⟨hr.1, adjSorted_mono buffer _ a b ?_ hr.2⟩
      intro i hi
      have hble : b ≤ lls := (h4 b hb).2
      exact getD_eq_of_take_eq htake (by omega) 0
    · intro x hx y hy
      simp only [List.head?_cons, Option.mem_def, Option.some.injEq] at hy
      rw [h2] at hx
      simp only [Option.mem_def, Option.some.injEq] at hx
      subst hx
      subst hy
      exact ⟨h5, hadj⟩
  · intro x hx
    rcases List.mem_append.mp hx with hx1 | hx2
    · have := h4 x hx1
      omega
    · simp at hx2
      omega
  · omega
  · exact h7
  · rw [hlen]
    exact h7

lemma stInv_initial : StInv initialDecodeState := by
  refine ⟨rfl, rfl, List.chain'_singleton _, ?_, ?_, ?_, ?_⟩ <;> simp [initialDecodeState]

lemma decodeGo_inv : ∀ (fuel : Nat) (cs : List Char) (st : DecodeState),
    StInv st → StInv (decodeGo fuel cs st) := by
  intro fuel
  induction fuel with
  | zero => intro cs st h; exact h
  | succ fuel ih =>
    intro cs st h
    cases cs with
    | nil => exact h
    | cons c cs =>
      simp only [decodeGo]
      by_cases hc1 : c = ','
      · rw [if_pos hc1]
        exact ih cs st h
      · rw [if_neg hc1]
        by_cases hc2 : c = ';'
        · rw [if_pos hc2]
          exact ih cs _ (bufInv_close h)
        · rw [if_neg hc2]
          by_cases hm1 : hasMoreMappings (decodeInteger (c :: cs)).2 = false
          · rw [if_pos hm1]
            exact ih _ _ (bufInv_append h _ (by simp))
          · rw [if_neg hm1]
            by_cases hm2 : hasMoreMappings
                (decodeInteger (decodeInteger (decodeInteger
                  (decodeInteger (c :: cs)).2).2).2).2 = false
            · rw [if_pos hm2]
              exact ih _ _ (bufInv_append h _ (by simp))
            · rw [if_neg hm2]
              exact ih _ _ (bufInv_append h _ (by simp))

/-- Structural facts about a constructed map: the offset table starts at 0,
ends at the buffer length, is non-decreasing with per-line-sorted record
ranges, and all its entries are record-aligned bounds into the buffer. -/
def MapInv (m : EncodedMap) : Prop :=
  m._lineIndices.head? = some 0 ∧
  m._lineIndices.getLast? = some m._mappings.length ∧
  List.Chain' (fun a b => a ≤ b ∧ AdjSorted m._mappings a b) m._lineIndices ∧
  (∀ x ∈ m._lineIndices, x % 5 = 0 ∧ x ≤ m._mappings.length) ∧
  m._mappings.length % 5 = 0

lemma mkMap_inv (encoded : String) : MapInv (mkMap encoded) := by
  have h := decodeGo_inv (encoded.toList.length + 1) encoded.toList
    initialDecodeState stInv_initial
  have h2 := bufInv_close h
  set st := decodeGo (encoded.toList.length + 1) encoded.toList initialDecodeState
  obtain ⟨g1, g2, g3, g4, g5, g6, g7⟩ := h2
  have hlen : (maybeSort st.buffer st.lastLineStart st.buffer.length).length
      = st.buffer.length := by
    obtain ⟨_, _, _, _, k5, k6, k7⟩ := h
    exact maybeSort_length st.buffer st.lastLineStart st.buffer.length k5 (by omega) rfl
  have hbuf : (mkMap encoded)._mappings
      = maybeSort st.buffer st.lastLineStart st.buffer.length := rfl
  have hlines : (mkMap encoded)._lineIndices = st.lines ++ [st.buffer.length] := rfl
  refine ⟨?_, ?_, ?_, ?_, ?_⟩
  · rw [hlines]
    exact g1
  · rw [hlines, hbuf, hlen]
    exact g2
  · rw [hlines, hbuf]
    exact g3
  · intro x hx
    rw [hlines] at hx
    rw [hbuf, hlen]
    exact g4 x hx
  · rw [hbuf, hlen]
    exact g6

lemma head?_getD {l : List Nat} (h : l.head? = some 0) : l.getD 0 0 = 0 := by
  cases l with
  | nil => simp at h
  | cons a t =>
    simp only [List.head?_cons, Option.some.injEq] at h
    simp [h]

lemma mkMap_head (encoded : String) : (mkMap encoded)._lineIndices.getD 0 0 = 0 :=
  head?_getD (mkMap_inv encoded).1

lemma chain'_pair {R : Nat → Nat → Prop} {l : List Nat} (h : List.Chain' R l) (i : Nat)
    (hi : i + 1 < l.length) : R (l.getD i 0) (l.getD (i + 1) 0) := by
  have hx := List.chain'_iff_get.mp h i (by omega)
  rw [List.getD_eq_getElem l 0 (by omega), List.getD_eq_getElem l 0 (by omega)]
  simpa using hx

def lineLowOf (m : EncodedMap) (line : Nat) : Nat := m._lineIndices.getD line 0

def lineEndOf (m : EncodedMap) (line : Nat) : Nat := m._lineIndices.getD (line + 1) 0

lemma mkMap_line_range (encoded : String) (line : Nat)
    (h : line + 1 < (mkMap encoded)._lineIndices.length) :
    lineLowOf (mkMap encoded) line ≤ lineEndOf (mkMap encoded) line ∧
    AdjSorted (mkMap encoded)._mappings (lineLowOf (mkMap encoded) line)
      (lineEndOf (mkMap encoded) line) :=
  chain'_pair (mkMap_inv encoded).2.2.1 line h

/-- Records within a sorted range are monotone by stored generated column. -/
lemma adjSorted_le (m : List Nat) (a b : Nat) (h : AdjSorted m a b) :
    ∀ k k2, k ≤ k2 → a + 5 * k2 < b → m.getD (a + 5 * k) 0 ≤ m.getD (a + 5 * k2) 0 := by
  intro k k2
  induction k2 with
  | zero =>
    intro hk _
    have : k = 0 := by omega
    subst this
    exact le_refl _
  | succ k2 ih =>
    intro hk hb
    rcases Nat.lt_or_ge k (k2 + 1) with hlt | hge
    · have h1 : m.getD (a + 5 * k) 0 ≤ m.getD (a + 5 * k2) 0 :=
        ih (by omega) (by omega)
      have h2 := h k2 (by omega)
      have hidx : a + 5 * k2 + 5 = a + 5 * (k2 + 1) := by omega
      rw [hidx] at h2
      exact le_trans h1 h2
    · have : k = k2 + 1 := by omega
      subst this
      exact le_refl _

/-! ### The line-offset table has one entry per observed line plus one -/

lemma decodeGo_lines_length : ∀ (fuel : Nat) (cs : List Char) (st : DecodeState),
    (decodeGo fuel cs st).lines.length = st.lines.length + countLinesGo fuel cs := by
  intro fuel
  induction fuel with
  | zero => intro cs st; rfl
  | succ fuel ih =>
    intro cs st
    cases cs with
    | nil => rfl
    | cons c cs =>
      simp only [decodeGo, countLinesGo]
      by_cases hc1 : c = ','
      · rw [if_pos hc1, if_pos hc1]
        exact ih cs st
      · rw [if_neg hc1, if_neg hc1]
        by_cases hc2 : c = ';'
        · rw [if_pos hc2, if_pos hc2]
          rw [ih]
          simp
          omega
        · rw [if_neg hc2, if_neg hc2]
          by_cases hm1 : hasMoreMappings (decodeInteger (c :: cs)).2 = false
          · rw [if_pos hm1, if_pos hm1]
            exact ih _ _
          · rw [if_neg hm1, if_neg hm1]
            by_cases hm2 : hasMoreMappings
                (decodeInteger (decodeInteger (decodeInteger
                  (decodeInteger (c :: cs)).2).2).2).2 = false
            · rw [if_pos hm2, if_pos hm2]
              exact ih _ _
            · rw [if_neg hm2, if_neg hm2]
              exact ih _ _

lemma mkMap_lines_length (encoded : String) :
    (mkMap encoded)._lineIndices.length = countSemis encoded + 2 := by
  have h := decodeGo_lines_length (encoded.toList.length + 1) encoded.toList
    initialDecodeState
  have hl : (mkMap encoded)._lineIndices =
      (decodeGo (encoded.toList.length + 1) encoded.toList initialDecodeState).lines
        ++ [(decodeGo (encoded.toList.length + 1) encoded.toList
              initialDecodeState).buffer.length] := rfl
  rw [hl]
  simp only [List.length_append, List.length_cons, List.length_nil, h]
  simp only [initialDecodeState]
  simp [countSemis]
  omega

/-! ### Memoization is unobservable -/

/-- The result a from-scratch full search over the given line's record range
produces. -/
def scratchIndex (m : EncodedMap) (line col : Nat) : Int :=
  searchFrom m._mappings col (lineLowOf m line) (lineEndOf m line) (-1)

/-- States the search cursor can actually be in: the fresh zero state, or a
record of the result of the previous (not out-of-range) query. -/
def ValidState (m : EncodedMap) (st : SearchState) : Prop :=
  st = initialSearchState ∨
  st._lastIndex = scratchIndex m st._lastLine st._lastColumn

lemma memoized_eq_scratch (m : EncodedMap) (st : SearchState) (line col : Nat)
    (hhead : m._lineIndices.getD 0 0 = 0) (hv : ValidState m st) :
    (memoizedBinarySearch m._mappings col (lineLowOf m line)
      ((lineEndOf m line : Int) - 1) st line).1 = scratchIndex m line col := by
  have he : (((lineEndOf m line : Int) - 1) + 1).toNat = lineEndOf m line := by omega
  simp only [memoizedBinarySearch, he]
  by_cases hmemo : line = st._lastLine ∧ st._lastColumn ≤ col
  · rw [if_pos hmemo]
    rcases hv with hinit | hcons
    · subst hinit
      have hline : line = 0 := hmemo.1
      subst hline
      simp only [initialSearchState, scratchIndex, lineLowOf, hhead]
      norm_num
    · have hline : st._lastLine = line := hmemo.1.symm
      rw [hline] at hcons
      rcases searchFrom_spec m._mappings st._lastColumn (lineLowOf m line)
        (lineEndOf m line) (-1) with ⟨hres, _⟩ | ⟨k, hk, hq, hres, _⟩
      · rw [scratchIndex] at hcons
        rw [hcons, hres]
        have : (-1 : Int) < (lineLowOf m line : Int) := by omega
        rw [if_pos this]
        rfl
      · rw [scratchIndex] at hcons
        rw [hcons, hres]
        have hnot : ¬ (((lineLowOf m line + 5 * k : Nat) : Int) < (lineLowOf m line : Int)) := by
          push_cast
          omega
        rw [if_neg hnot, Int.toNat_natCast]
        exact searchFrom_shift m._mappings col (lineLowOf m line) (lineEndOf m line) k
          (le_trans hq hmemo.2) hk
  · rw [if_neg hmemo]
    rfl

lemma memoizedBinarySearch_snd (haystack : List Nat) (needle low : Nat) (high : Int)
    (st : SearchState) (line : Nat) :
    (memoizedBinarySearch haystack needle low high st line).2 =
      ⟨(memoizedBinarySearch haystack needle low high st line).1, line, needle⟩ := rfl

lemma traceSegment_fst_eq (m : EncodedMap) (st : SearchState) (line col : Nat)
    (hhead : m._lineIndices.getD 0 0 = 0) (hv : ValidState m st) :
    (traceSegment m st line col).1 = traceSegmentScratch m line col := by
  by_cases hrange : m._lineIndices.length - 1 ≤ line
  · simp [traceSegment, traceSegmentScratch, hrange]
  · have hmb : (memoizedBinarySearch m._mappings col (m._lineIndices.getD line 0)
        ((m._lineIndices.getD (line + 1) 0 : Int) - 1) st line).1
        = searchFrom m._mappings col (m._lineIndices.getD line 0)
            (m._lineIndices.getD (line + 1) 0) (-1) :=
      memoized_eq_scratch m st line col hhead hv
    simp only [traceSegment, traceSegmentScratch, if_neg hrange]
    rw [hmb]
    split_ifs <;> rfl

lemma traceSegment_snd_oor (m : EncodedMap) (st : SearchState) (line col : Nat)
    (hrange : m._lineIndices.length - 1 ≤ line) :
    (traceSegment m st line col).2 = st := by
  simp [traceSegment, hrange]

lemma traceSegment_snd_in (m : EncodedMap) (st : SearchState) (line col : Nat)
    (hrange : ¬ m._lineIndices.length - 1 ≤ line) :
    ((traceSegment m st line col).2)._lastLine = line ∧
    ((traceSegment m st line col).2)._lastColumn = col := by
  simp only [traceSegment, if_neg hrange]
  split_ifs <;> exact ⟨rfl, rfl⟩

lemma traceSegment_valid (m : EncodedMap) (st : SearchState) (line col : Nat)
    (hhead : m._lineIndices.getD 0 0 = 0) (hv : ValidState m st) :
    ValidState m (traceSegment m st line col).2 := by
  by_cases hrange : m._lineIndices.length - 1 ≤ line
  · rw [traceSegment_snd_oor m st line col hrange]
    exact hv
  · have h2 : (traceSegment m st line col).2 = ⟨scratchIndex m line col, line, col⟩ := by
      have hmb : (memoizedBinarySearch m._mappings col (m._lineIndices.getD line 0)
          ((m._lineIndices.getD (line + 1) 0 : Int) - 1) st line).1
          = scratchIndex m line col :=
        memoized_eq_scratch m st line col hhead hv
      simp only [traceSegment, if_neg hrange]
      split_ifs <;>
        · rw [memoizedBinarySearch_snd, hmb]
    rw [h2]
    exact Or.inr rfl

lemma runMemoized_eq (m : EncodedMap) (hhead : m._lineIndices.getD 0 0 = 0) :
    ∀ (qs : List (Nat × Nat)) (st : SearchState), ValidState m st →
      runMemoized m st qs = qs.map (fun q => traceSegmentScratch m q.1 q.2) := by
  intro qs
  induction qs with
  | nil => intro st _; rfl
  | cons q qs ih =>
    intro st hv
    simp only [runMemoized, List.map_cons]
    refine congrArg₂ _ ?_ ?_
    · exact traceSegment_fst_eq m st q.1 q.2 hhead hv
    · exact ih _ (traceSegment_valid m st q.1 q.2 hhead hv)

/-! ### Characterization of `decodedMappings` -/

/-- The materialized segments of generated line `ℓ`, read off the line's
record range in the flat buffer. -/
def lineSegs (m : EncodedMap) (ℓ : Nat) : List (List Int) :=
  (recordStarts (m._lineIndices.getD ℓ 0) (m._lineIndices.getD (ℓ + 1) 0)).map
    (segmentify m._mappings)

/-- How many line sequences `decodedMappings` actually returns: one more
than the number of offset-table entries (past the first) that lie strictly
before the end of the buffer.  Trailing empty lines contribute entries equal
to the buffer length and are not emitted. -/
def numEmittedLines (m : EncodedMap) : Nat :=
  1 + (m._lineIndices.drop 1).countP (fun x => decide (x < m._mappings.length))

lemma getD_drop_eq (l : List Nat) (n i d : Nat) :
    (l.drop n).getD i d = l.getD (n + i) d := by
  simp [List.getD_eq_getElem?_getD, List.getElem?_drop]

lemma getD_mem {l : List Nat} {j : Nat} (h : j < l.length) : l.getD j 0 ∈ l := by
  rw [List.getD_eq_getElem l 0 h]
  exact List.getElem_mem h

lemma getLast?_getD {l : List Nat} {x : Nat} (h : l.getLast? = some x) :
    l.getD (l.length - 1) 0 = x := by
  rw [List.getD_eq_getElem?_getD, ← List.getLast?_eq_getElem?, h]
  rfl

lemma chain'_le_getD {l : List Nat} (h : List.Chain' (fun a b : Nat => a ≤ b) l) :
    ∀ j j2, j ≤ j2 → j2 < l.length → l.getD j 0 ≤ l.getD j2 0 := by
  intro j j2
  induction j2 with
  | zero =>
    intro hle _
    have hj : j = 0 := by omega
    subst hj
    exact le_refl _
  | succ k ih =>
    intro hle hlt
    rcases Nat.lt_or_ge j (k + 1) with hj | hj
    · exact le_trans (ih (by omega) (by omega)) (chain'_pair h k hlt)
    · have hj2 : j = k + 1 := by omega
      subst hj2
      exact le_refl _

lemma countP_split (l : List Nat) (p : Nat → Bool) (t : Nat) (ht : t ≤ l.length)
    (h1 : ∀ j, j < t → p (l.getD j 0) = true)
    (h2 : ∀ j, t ≤ j → j < l.length → p (l.getD j 0) = false) :
    l.countP p = t := by
  conv_lhs => rw [← List.take_append_drop t l]
  rw [List.countP_append]
  have e1 : (l.take t).countP p = (l.take t).length := by
    rw [List.countP_eq_length]
    intro a ha
    obtain ⟨j, hj, rfl⟩ := List.mem_iff_getElem.mp ha
    have hjt : j < t := by simp at hj; omega
    have hjl : j < l.length := by simp at hj; omega
    rw [List.getElem_take, ← List.getD_eq_getElem l 0 hjl]
    exact h1 j hjt
  have e2 : (l.drop t).countP p = 0 := by
    rw [List.countP_eq_zero]
    intro a ha
    obtain ⟨j, hj, rfl⟩ := List.mem_iff_getElem.mp ha
    have hjl : t + j < l.length := by simp at hj; omega
    have hd : (l.drop t)[j] = l[t + j] := by simp [List.getElem_drop]
    rw [hd, ← List.getD_eq_getElem l 0 hjl]
    rw [h2 (t + j) (by omega) hjl]
    simp
  rw [e1, e2, List.length_take]
  omega

lemma recordStarts_nil (s : Nat) : recordStarts s s = [] := by
  have h : (s - s + 4) / 5 = 0 := by omega
  simp [recordStarts, h]

lemma recordStarts_snoc (s i : Nat) (hsi : s ≤ i) (hdvd : 5 ∣ i - s) :
    recordStarts s (i + 5) = recordStarts s i ++ [i] := by
  obtain ⟨q, hq⟩ := hdvd
  have h1 : (i + 5 - s + 4) / 5 = q + 1 := by omega
  have h0 : (i - s + 4) / 5 = q := by omega
  simp only [recordStarts, h1, h0, List.range_succ, List.map_append, List.map_cons,
    List.map_nil]
  have h2 : s + 5 * q = i := by omega
  rw [h2]

lemma decLoopGo_eq (B L : List Nat)
    (hhead : L.getD 0 0 = 0)
    (hsorted : ∀ j j2, j ≤ j2 → j2 < L.length → L.getD j 0 ≤ L.getD j2 0)
    (hmem5 : ∀ j, j < L.length → L.getD j 0 % 5 = 0)
    (hmemle : ∀ j, j < L.length → L.getD j 0 ≤ B.length)
    (hlast : L.getD (L.length - 1) 0 = B.length)
    (hlen5 : B.length % 5 = 0)
    (hL2 : 2 ≤ L.length) :
    ∀ gas i idx acc line,
      (B.length - i) + (L.length - idx) + 1 ≤ gas →
      i % 5 = 0 → i ≤ B.length →
      1 ≤ idx → idx ≤ L.length - 1 →
      (∀ j, 1 ≤ j → j < idx → L.getD j 0 < B.length ∧ L.getD j 0 ≤ i) →
      i ≤ L.getD idx 0 →
      acc = (List.range (idx - 1)).map
        (fun ℓ => (recordStarts (L.getD ℓ 0) (L.getD (ℓ + 1) 0)).map (segmentify B)) →
      line = (recordStarts (L.getD (idx - 1) 0) i).map (segmentify B) →
      decLoopGo B L gas i idx acc line
        = (List.range (1 + (L.drop 1).countP (fun x => decide (x < B.length)))).map
            (fun ℓ => (recordStarts (L.getD ℓ 0) (L.getD (ℓ + 1) 0)).map
              (segmentify B)) := by
  intro gas
  induction gas with
  | zero =>
    intro i idx acc line hgas
    omega
  | succ gas ih =>
    intro i idx acc line hgas h5 hile h1idx hidxle hdone hcur hacc hline
    have hunf : decLoopGo B L (gas + 1) i idx acc line =
        if i < B.length then
          (if L[idx]? = some i then decLoopGo B L gas i (idx + 1) (acc ++ [line]) []
           else decLoopGo B L gas (i + ITEM_LENGTH) idx acc
             (line ++ [segmentify B i]))
        else acc ++ [line] := rfl
    by_cases hi : i < B.length
    · rw [hunf, if_pos hi]
      have hidxlt : idx < L.length := by omega
      by_cases hc : L[idx]? = some i
      · rw [if_pos hc]
        obtain ⟨hlt2, hv⟩ := List.getElem?_eq_some_iff.mp hc
        have hval : L.getD idx 0 = i := by
          rw [List.getD_eq_getElem L 0 hlt2]
          exact hv
        have hnext : idx < L.length - 1 := by
          by_contra hcon
          have hx : idx = L.length - 1 := by omega
          rw [hx, hlast] at hval
          omega
        apply ih i (idx + 1) (acc ++ [line]) []
        · omega
        · exact h5
        · exact hile
        · omega
        · omega
        · intro j hj1 hj2
          rcases Nat.lt_or_ge j idx with hj | hj
          · exact hdone j hj1 hj
          · have hx : j = idx := by omega
            subst hx
            rw [hval]
            exact ⟨hi, le_refl _⟩
        · calc i = L.getD idx 0 := hval.symm
            _ ≤ L.getD (idx + 1) 0 := hsorted idx (idx + 1) (by omega) (by omega)
        · have hr : (List.range idx).map
              (fun ℓ => (recordStarts (L.getD ℓ 0) (L.getD (ℓ + 1) 0)).map
                (segmentify B))
              = (List.range (idx - 1)).map
                  (fun ℓ => (recordStarts (L.getD ℓ 0) (L.getD (ℓ + 1) 0)).map
                    (segmentify B)) ++
                [(recordStarts (L.getD (idx - 1) 0) (L.getD (idx - 1 + 1) 0)).map
                  (segmentify B)] := by
            conv_lhs => rw [show idx = (idx - 1) + 1 by omega]
            rw [List.range_succ, List.map_append, List.map_cons, List.map_nil]
          have hx : idx + 1 - 1 = idx := by omega
          rw [hx, hr, hacc, hline]
          have hy : idx - 1 + 1 = idx := by omega
          rw [hy, hval]
        · have hx : idx + 1 - 1 = idx := by omega
          rw [hx, hval, recordStarts_nil]
          rfl
      · rw [if_neg hc]
        have hne : L.getD idx 0 ≠ i := by
          intro he
          apply hc
          rw [List.getElem?_eq_some_iff]
          refine ⟨hidxlt, ?_⟩
          rw [← List.getD_eq_getElem L 0 hidxlt]
          exact he
        have hstep : i + 5 ≤ L.getD idx 0 := by
          have := hmem5 idx hidxlt
          omega
        have hprev_le : L.getD (idx - 1) 0 ≤ i := by
          rcases Nat.eq_or_lt_of_le h1idx with h1 | h1
          · rw [show idx - 1 = 0 by omega, hhead]
            omega
          · exact (hdone (idx - 1) (by omega) (by omega)).2
        have hprev5 : L.getD (idx - 1) 0 % 5 = 0 := hmem5 (idx - 1) (by omega)
        apply ih (i + ITEM_LENGTH) idx acc (line ++ [segmentify B i])
        · simp only [ITEM_LENGTH]
          omega
        · simp only [ITEM_LENGTH]
          omega
        · simp only [ITEM_LENGTH]
          omega
        · exact h1idx
        · exact hidxle
        · intro j hj1 hj2
          refine ⟨(hdone j hj1 hj2).1, le_trans (hdone j hj1 hj2).2 (by simp [ITEM_LENGTH])⟩
        · simp only [ITEM_LENGTH]
          omega
        · exact hacc
        · simp only [ITEM_LENGTH]
          rw [recordStarts_snoc (L.getD (idx - 1) 0) i hprev_le (by omega),
            List.map_append, hline]
          rfl
    · rw [hunf, if_neg hi]
      have hieq : i = B.length := by omega
      have hKeq : (L.drop 1).countP (fun x => decide (x < B.length)) = idx - 1 := by
        apply countP_split
        · simp
          omega
        · intro j hj
          rw [getD_drop_eq]
          have := hdone (1 + j) (by omega) (by omega)
          simp only [decide_eq_true_eq]
          exact this.1
        · intro j hj1 hj2
          rw [getD_drop_eq]
          simp only [List.length_drop] at hj2
          have hge : L.getD idx 0 ≤ L.getD (1 + j) 0 :=
            hsorted idx (1 + j) (by omega) (by omega)
          simp only [decide_eq_false_iff_not, not_lt]
          omega
      rw [hKeq]
      have hK1 : 1 + (idx - 1) = idx := by omega
      rw [hK1]
      have hr : (List.range idx).map
          (fun ℓ => (recordStarts (L.getD ℓ 0) (L.getD (ℓ + 1) 0)).map
            (segmentify B))
          = (List.range (idx - 1)).map
              (fun ℓ => (recordStarts (L.getD ℓ 0) (L.getD (ℓ + 1) 0)).map
                (segmentify B)) ++
            [(recordStarts (L.getD (idx - 1) 0) (L.getD (idx - 1 + 1) 0)).map
              (segmentify B)] := by
        conv_lhs => rw [show idx = (idx - 1) + 1 by omega]
        rw [List.range_succ, List.map_append, List.map_cons, List.map_nil]
      rw [hr, ← hacc]
      have hy : idx - 1 + 1 = idx := by omega
      rw [hy]
      have hidx_end : L.getD idx 0 = B.length := by
        have hle := hmemle idx (by omega)
        omega
      rw [hidx_end, ← hieq, ← hline]

theorem decodedMappings_eq (encoded : String) :
    decodedMappings (mkMap encoded)
      = (List.range (numEmittedLines (mkMap encoded))).map (lineSegs (mkMap encoded)) := by
  obtain ⟨i1, i2, i3, i4, i5⟩ := mkMap_inv encoded
  have hL2 : 2 ≤ (mkMap encoded)._lineIndices.length := by
    rw [mkMap_lines_length]
    omega
  have hcore := decLoopGo_eq (mkMap encoded)._mappings (mkMap encoded)._lineIndices
    (mkMap_head encoded)
    (chain'_le_getD (List.Chain'.imp (fun a b h => h.1) i3))
    (fun j hj => (i4 _ (getD_mem hj)).1)
    (fun j hj => (i4 _ (getD_mem hj)).2)
    (getLast?_getD i2)
    i5
    hL2
    ((mkMap encoded)._mappings.length + (mkMap encoded)._lineIndices.length + 1)
    0 1 [] []
    (by omega)
    (by omega)
    (by omega)
    (by omega)
    (by omega)
    (by omega)
    (by omega)
    (by simp)
    (by rw [mkMap_head encoded, recordStarts_nil]; rfl)
  exact hcore

/-! ### VLQ reassembly -/

/-- The value described by the spec's reassembly rule: each digit
contributes its low five bits at the next more significant 5-bit group. -/
def digitsVal : List Char → Nat → Nat
  | [], _ => 0
  | c :: cs, shift => (base64IndexVal c &&& 31) * 2 ^ shift + digitsVal cs (shift + 5)

lemma lor_shiftLeft_eq_add {a : Nat} (b : Nat) {s : Nat} (ha : a < 2 ^ s) :
    a ||| (b <<< s) = 2 ^ s * b + a := by
  apply Nat.eq_of_testBit_eq
  intro i
  rw [Nat.testBit_lor, Nat.testBit_shiftLeft, Nat.testBit_mul_pow_two_add b ha i]
  by_cases h : i < s
  · have h2 : ¬ (s ≤ i) := by omega
    simp [h, h2]
  · have hs : s ≤ i := by omega
    have hbit : a.testBit i = false :=
      Nat.testBit_lt_two_pow (lt_of_lt_of_le ha (Nat.pow_le_pow_right (by omega) hs))
    simp [h, hs, hbit]

lemma decodeIntegerGo_lt : ∀ (cs : List Char) (value shift : Nat),
    value < U32 → (decodeIntegerGo cs value shift).1 < U32 := by
  intro cs
  induction cs with
  | nil => intro value shift h; exact h
  | cons c cs ih =>
    intro value shift h
    simp only [decodeIntegerGo]
    split_ifs
    · exact ih _ _ (Nat.or_lt_two_pow (n := 32) h (Nat.mod_lt _ (by norm_num [U32])))
    · exact Nat.or_lt_two_pow (n := 32) h (Nat.mod_lt _ (by norm_num [U32]))

lemma decodeIntegerGo_digits : ∀ (cs : List Char) (value shift : Nat),
    cs ≠ [] →
    (∀ i, i + 1 < cs.length → base64IndexVal (cs.getD i 'A') &&& 32 ≠ 0) →
    base64IndexVal (cs.getD (cs.length - 1) 'A') &&& 32 = 0 →
    shift + 5 * cs.length ≤ 30 →
    value < 2 ^ shift →
    decodeIntegerGo cs value shift = (value + digitsVal cs shift, []) := by
  intro cs
  induction cs with
  | nil => intro value shift h; exact absurd rfl h
  | cons c cs ih =>
    intro value shift _ hcont hlast hbound hval
    have hsh : shift % 32 = shift := Nat.mod_eq_of_lt (by simp at hbound; omega)
    have hterm : ((base64IndexVal c &&& 31) <<< (shift % 32)) % U32
        = 2 ^ shift * (base64IndexVal c &&& 31) := by
      rw [hsh, Nat.shiftLeft_eq, Nat.mod_eq_of_lt, Nat.mul_comm]
      calc (base64IndexVal c &&& 31) * 2 ^ shift
          < 32 * 2 ^ shift := by
            have h31 : base64IndexVal c &&& 31 < 32 := by
              have := Nat.and_le_right (n := base64IndexVal c) (m := 31)
              omega
            exact (Nat.mul_lt_mul_right (by positivity)).mpr h31
        _ = 2 ^ (shift + 5) := by ring
        _ ≤ 2 ^ 32 := Nat.pow_le_pow_right (by norm_num) (by simp at hbound; omega)
        _ = U32 := by norm_num [U32]
    have hor : value ||| (((base64IndexVal c &&& 31) <<< (shift % 32)) % U32)
        = 2 ^ shift * (base64IndexVal c &&& 31) + value := by
      rw [hterm]
      have := lor_shiftLeft_eq_add (a := value) (base64IndexVal c &&& 31) (s := shift) hval
      rw [Nat.shiftLeft_eq, Nat.mul_comm (base64IndexVal c &&& 31) (2 ^ shift)] at this
      exact this
    cases cs with
    | nil =>
      have hstop : base64IndexVal c &&& 32 = 0 := by simpa using hlast
      have hunf : decodeIntegerGo [c] value shift =
          if base64IndexVal c &&& 32 ≠ 0 then
            decodeIntegerGo []
              (value ||| (((base64IndexVal c &&& 31) <<< (shift % 32)) % U32)) (shift + 5)
          else (value ||| (((base64IndexVal c &&& 31) <<< (shift % 32)) % U32), []) := rfl
      rw [hunf, if_neg (by simp [hstop]), hor]
      simp only [digitsVal, Prod.mk.injEq]
      exact ⟨by ring, by simp⟩
    | cons c2 cs2 =>
      have hgo : base64IndexVal c &&& 32 ≠ 0 := by
        have := hcont 0 (by simp)
        simpa using this
      have hrec := ih (2 ^ shift * (base64IndexVal c &&& 31) + value) (shift + 5)
        (by simp)
        (fun i hi => by
          have hx := hcont (i + 1) (by simp at hi ⊢; omega)
          simpa using hx)
        (by simpa using hlast)
        (by simp at hbound ⊢; omega)
        (by
          have h31 : base64IndexVal c &&& 31 ≤ 31 := Nat.and_le_right
          calc 2 ^ shift * (base64IndexVal c &&& 31) + value
              < 2 ^ shift * (base64IndexVal c &&& 31) + 2 ^ shift := by omega
            _ ≤ 2 ^ shift * 31 + 2 ^ shift := by
                have := Nat.mul_le_mul_left (2 ^ shift) h31
                omega
            _ = 2 ^ (shift + 5) := by ring
          )
      have hunf : decodeIntegerGo (c :: c2 :: cs2) value shift =
          if base64IndexVal c &&& 32 ≠ 0 then
            decodeIntegerGo (c2 :: cs2)
              (value ||| (((base64IndexVal c &&& 31) <<< (shift % 32)) % U32)) (shift + 5)
          else (value ||| (((base64IndexVal c &&& 31) <<< (shift % 32)) % U32), c2 :: cs2) := rfl
      rw [hunf, if_pos hgo, hor, hrec]
      simp only [digitsVal, Prod.mk.injEq]
      exact ⟨by ring, by simp⟩

lemma toInt32_vlqStore (v : Nat) (hv : v < U32) :
    toInt32 (vlqStore v) =
      if v % 2 = 1 then
        (if v / 2 = 0 then -(U31 : Int) else -((v / 2 : Nat) : Int))
      else ((v / 2 : Nat) : Int) := by
  have hU31 : U31 = 2 ^ 31 := by norm_num [U31]
  have hU32 : U32 = 2 ^ 32 := by norm_num [U32]
  have hand : v &&& 1 = v % 2 := Nat.and_one_is_mod v
  have hshift : v >>> 1 = v / 2 := Nat.shiftRight_one v
  have hhalf : v / 2 < U31 := by omega
  simp only [vlqStore, hand, hshift]
  by_cases hodd : v % 2 = 1
  · rw [if_pos (by omega), if_pos hodd]
    by_cases hz : v / 2 = 0
    · rw [if_pos hz, hz]
      simp only [Nat.sub_zero]
      have : U31 ||| (U32 % U32) = U31 := by
        simp [Nat.mod_self]
      rw [this, toInt32, if_neg (by omega)]
      have : ((U31 : Nat) : Int) - ((U32 : Nat) : Int) = -(U31 : Int) := by
        norm_num [U31, U32]
      simpa using this
    · rw [if_neg hz]
      have hmod : (U32 - v / 2) % U32 = U32 - v / 2 := Nat.mod_eq_of_lt (by omega)
      rw [hmod]
      have hy : U32 - v / 2 = U31 + (U31 - v / 2) := by omega
      have hylt : U31 - v / 2 < 2 ^ 31 := by omega
      have hone : (1 : Nat) <<< 31 = U31 := by norm_num [Nat.shiftLeft_eq, U31]
      have hadd : (U31 - v / 2) ||| U31 = U31 + (U31 - v / 2) := by
        have := lor_shiftLeft_eq_add (a := U31 - v / 2) 1 (s := 31) hylt
        rw [hone] at this
        rw [this, hU31]
        ring
      have hpat : U31 ||| (U32 - v / 2) = U32 - v / 2 := by
        rw [hy, ← hadd, ← Nat.lor_assoc, Nat.lor_comm U31 (U31 - v / 2),
          Nat.lor_assoc, Nat.or_self]
      rw [hpat, toInt32, if_neg (by omega)]
      rw [Nat.cast_sub (show v / 2 ≤ U32 by omega)]
      push_cast
      ring
  · rw [if_neg (by omega), if_neg hodd]
    rw [toInt32, if_pos hhalf]

/-! ### Claim theorems -/

/-- C1: evaluation of the code at the failing input `"EAAA,DAAA"` (a line
whose two records have generated columns 2 and 1, so it is out of order and
`maybeSort` runs).  The extraction loop slices `start` instead of the loop
index, so the written-back range is two copies of the first record
`[2,1,1,1,0]`; the original second record (generated column 1, stored
`[1,1,1,1,0]`) is lost, and the result is not a permutation of the line's
records as the claim requires. -/
theorem c1_code_bug_eval :
    (mkMap "EAAA,DAAA")._mappings = [2, 1, 1, 1, 0, 2, 1, 1, 1, 0] ∧
    (mkMap "EAAA,DAAA")._lineIndices = [0, 10] ∧
    decodedMappings (mkMap "EAAA,DAAA") = [[[2, 0, 0, 0], [2, 0, 0, 0]]] := by
  decide

/-- C2: for every decoded map, any reachable cursor state, any line in the
decoded range and any column, `traceSegment` returns the materialized
segment of a record of that line whose stored generated column is at most
the query column and is greatest among such records; it returns not-found
when every record of the line starts after the column, and also when the
line is outside the decoded range. -/
theorem c2_traceSegment_correct (encoded : String) (st : SearchState)
    (line col : Nat) (hv : ValidState (mkMap encoded) st) :
    ((mkMap encoded)._lineIndices.length - 1 ≤ line →
      (traceSegment (mkMap encoded) st line col).1 = none) ∧
    (line < (mkMap encoded)._lineIndices.length - 1 →
      ((∀ k, k ≤ lineEndOf (mkMap encoded) line →
          lineLowOf (mkMap encoded) line + 5 * k < lineEndOf (mkMap encoded) line →
          col < (mkMap encoded)._mappings.getD
            (lineLowOf (mkMap encoded) line + 5 * k) 0) →
        (traceSegment (mkMap encoded) st line col).1 = none) ∧
      (∀ k0, k0 ≤ lineEndOf (mkMap encoded) line →
        lineLowOf (mkMap encoded) line + 5 * k0 < lineEndOf (mkMap encoded) line →
        (mkMap encoded)._mappings.getD
          (lineLowOf (mkMap encoded) line + 5 * k0) 0 ≤ col →
        ∃ k, lineLowOf (mkMap encoded) line + 5 * k < lineEndOf (mkMap encoded) line ∧
          (mkMap encoded)._mappings.getD
            (lineLowOf (mkMap encoded) line + 5 * k) 0 ≤ col ∧
          (∀ k2, k2 ≤ lineEndOf (mkMap encoded) line →
            lineLowOf (mkMap encoded) line + 5 * k2 < lineEndOf (mkMap encoded) line →
            (mkMap encoded)._mappings.getD
              (lineLowOf (mkMap encoded) line + 5 * k2) 0 ≤ col →
            (mkMap encoded)._mappings.getD
              (lineLowOf (mkMap encoded) line + 5 * k2) 0 ≤
              (mkMap encoded)._mappings.getD
                (lineLowOf (mkMap encoded) line + 5 * k) 0) ∧
          (traceSegment (mkMap encoded) st line col).1 =
            some (segmentify (mkMap encoded)._mappings
              (lineLowOf (mkMap encoded) line + 5 * k)))) := by
  have hhead := mkMap_head encoded
  have hfst := traceSegment_fst_eq (mkMap encoded) st line col hhead hv
  have hform : traceSegmentScratch (mkMap encoded) line col =
      if (mkMap encoded)._lineIndices.length - 1 ≤ line then none
      else if scratchIndex (mkMap encoded) line col < 0 then none
        else some (segmentify (mkMap encoded)._mappings
          (scratchIndex (mkMap encoded) line col).toNat) := rfl
  constructor
  · intro hrange
    rw [hfst, hform, if_pos hrange]
  · intro hrange
    have hrange2 : ¬ ((mkMap encoded)._lineIndices.length - 1 ≤ line) := by omega
    have hadj : AdjSorted (mkMap encoded)._mappings (lineLowOf (mkMap encoded) line)
        (lineEndOf (mkMap encoded) line) :=
      (mkMap_line_range encoded line (by omega)).2
    rcases searchFrom_spec (mkMap encoded)._mappings col
      (lineLowOf (mkMap encoded) line) (lineEndOf (mkMap encoded) line) (-1) with
      ⟨hres, hnone⟩ | ⟨k, hk, hq, hres, hmax⟩
    · have hsc : scratchIndex (mkMap encoded) line col = -1 := hres
      constructor
      · intro _
        rw [hfst, hform, if_neg hrange2, hsc, if_pos (by norm_num)]
      · intro k0 _ hk0lt hk0q
        have := hnone k0 hk0lt
        omega
    · have hsc : scratchIndex (mkMap encoded) line col
          = ((lineLowOf (mkMap encoded) line + 5 * k : Nat) : Int) := hres
      constructor
      · intro hall
        have := hall k (by omega) hk
        omega
      · intro k0 _ _ _
        refine ⟨k, hk, hq, ?_, ?_⟩
        · intro k2 _ hk2lt hk2q
          exact adjSorted_le _ _ _ hadj k2 k (hmax k2 hk2lt hk2q) hk
        · rw [hfst, hform, if_neg hrange2, hsc,
            if_neg (by omega), Int.toNat_natCast]

/-- C2 witness: on the concrete map of `"AAAA,SAAS;KACA"`, querying line 1
at column 2 (which precedes that line's only record at column 5) reports
not-found. -/
theorem c2_witness :
    (traceSegment (mkMap "AAAA,SAAS;KACA") initialSearchState 1 2).1 = none := by
  have h := (c2_traceSegment_correct "AAAA,SAAS;KACA" initialSearchState 1 2
    (Or.inl rfl)).2 (by decide)
  exact h.1 (by decide)

/-- C3 counterexample: for the input `"A;"` (a trailing `';'` producing a
trailing empty generated line), `decodedMappings` returns a single line
sequence although `lineOffsets.length - 1 = 2`; the trailing empty line is
not returned, so the claimed count equality fails. -/
theorem c3_counterexample :
    (decodedMappings (mkMap "A;")).length = 1 ∧
    (mkMap "A;")._lineIndices.length - 1 = 2 ∧ (1 : Nat) ≠ 2 := by
  decide

/-- C3 amended: `decodedMappings` returns, in order, one sequence of
materialized segments per generated line for an initial prefix of the
lines: interior empty lines are included, but every trailing empty line is
dropped (except that a map with no records still yields one empty line).
The number of returned sequences is one more than the number of offset
entries past the first that lie strictly before the buffer end, not
`lineOffsets.length - 1`. -/
theorem c3_amended (encoded : String) :
    decodedMappings (mkMap encoded)
      = (List.range (numEmittedLines (mkMap encoded))).map (lineSegs (mkMap encoded)) ∧
    (decodedMappings (mkMap encoded)).length = numEmittedLines (mkMap encoded) := by
  refine ⟨decodedMappings_eq encoded, ?_⟩
  rw [decodedMappings_eq encoded]
  simp

/-- C4 counterexample: the single digit `'B'` reassembles to the value 1 —
magnitude bits all zero, sign flag set — yet it decodes to `-2^31`, not to
0 as the claim's parenthetical asserts. -/
theorem c4_counterexample :
    (decodeIntegerGo ['B'] 0 0).1 = 1 ∧
    decodeIntegerValue ['B'] = -(2147483648 : Int) ∧
    (-(2147483648 : Int)) ≠ 0 := by
  decide

/-- C4 amended: for every digit run of at most six base-64 digits (where
every digit except the last carries continuation bit 32 and the last does
not), the decoder consumes exactly the run, reassembles the low 5 bits of
the digits least-significant-group first into `digitsVal`, and decodes the
remaining bits shifted right by one, negated when the sign bit is set —
except that a zero magnitude with the sign flag set decodes to `-2^31`
(the encoding of the most negative 32-bit integer), not 0. -/
theorem c4_amended (cs : List Char) (hne : cs ≠ [])
    (hcont : ∀ i, i < cs.length - 1 → base64IndexVal (cs.getD i 'A') &&& 32 ≠ 0)
    (hlast : base64IndexVal (cs.getD (cs.length - 1) 'A') &&& 32 = 0)
    (hbound : 5 * cs.length ≤ 30) :
    decodeInteger cs = (vlqStore (digitsVal cs 0), []) ∧
    decodeIntegerValue cs =
      (if digitsVal cs 0 % 2 = 1 then
        (if digitsVal cs 0 / 2 = 0 then -(U31 : Int)
         else -((digitsVal cs 0 / 2 : Nat) : Int))
       else ((digitsVal cs 0 / 2 : Nat) : Int)) := by
  have hgo := decodeIntegerGo_digits cs 0 0 hne (fun i hi => hcont i (by omega))
    hlast (by omega) (by norm_num)
  have hd1 : decodeInteger cs = (vlqStore (digitsVal cs 0), []) := by
    simp only [decodeInteger, hgo]
    simp
  refine ⟨hd1, ?_⟩
  have hlt : digitsVal cs 0 < U32 := by
    have h2 := decodeIntegerGo_lt cs 0 0 (by norm_num [U32])
    rw [hgo] at h2
    simpa using h2
  rw [decodeIntegerValue, hd1]
  exact toInt32_vlqStore _ hlt

/-- C4 witness: the two-digit run `"gC"` (digit 32 with continuation, then
digit 2) reassembles to 64 and decodes to 32. -/
theorem c4_witness :
    decodeInteger ['g', 'C'] = (vlqStore (digitsVal ['g', 'C'] 0), []) ∧
    decodeIntegerValue ['g', 'C'] = 32 := by
  have h := c4_amended ['g', 'C'] (by decide) (by decide) (by decide) (by decide)
  refine ⟨h.1, ?_⟩
  rw [h.2]
  decide

/-- C5 counterexample: for the input `"AAAA"` the line-offset table is
`[0, 5]` — entries are indices into the flat integer buffer (5 per
record) — while line 0 holds exactly one record, so in buffer-record units
its exclusive end would be 1, not 5. -/
theorem c5_counterexample :
    (mkMap "AAAA")._lineIndices.getD 1 0 = 5 ∧
    (mkMap "AAAA")._mappings.length / 5 = 1 ∧
    (5 : Nat) ≠ 1 := by
  decide

/-- C5 amended: for every input string the line-offset table has exactly
(number of observed generated lines, trailing empty ones included) + 1
entries, is non-decreasing, starts at 0 and ends at the flat-buffer length,
and its entries are indices in flat integer units — multiples of 5, five
per record — bounding each line's record range. -/
theorem c5_amended (encoded : String) :
    (mkMap encoded)._lineIndices.length = (countSemis encoded + 1) + 1 ∧
    (mkMap encoded)._lineIndices.getD 0 0 = 0 ∧
    (mkMap encoded)._lineIndices.getLast? = some (mkMap encoded)._mappings.length ∧
    List.Chain' (fun a b : Nat => a ≤ b) (mkMap encoded)._lineIndices ∧
    (∀ x ∈ (mkMap encoded)._lineIndices,
      x % 5 = 0 ∧ x ≤ (mkMap encoded)._mappings.length) ∧
    (mkMap encoded)._mappings.length % 5 = 0 := by
  obtain ⟨i1, i2, i3, i4, i5⟩ := mkMap_inv encoded
  refine ⟨?_, mkMap_head encoded, i2, List.Chain'.imp (fun a b h => h.1) i3, i4, i5⟩
  rw [mkMap_lines_length]

/-- C6: an out-of-range line (at or beyond `lineOffsets.length - 1`) always
reports not-found, for every column and any reachable cursor state; and a
column before the first record of an in-range non-empty line also reports
not-found.  `traceSegment` is a total function of its inputs — both cases
are returned values, never failures. -/
theorem c6_boundary (encoded : String) (st : SearchState) (line col : Nat)
    (hv : ValidState (mkMap encoded) st) :
    ((mkMap encoded)._lineIndices.length - 1 ≤ line →
      (traceSegment (mkMap encoded) st line col).1 = none) ∧
    (line < (mkMap encoded)._lineIndices.length - 1 →
      lineLowOf (mkMap encoded) line < lineEndOf (mkMap encoded) line →
      col < (mkMap encoded)._mappings.getD (lineLowOf (mkMap encoded) line) 0 →
      (traceSegment (mkMap encoded) st line col).1 = none) := by
  have hhead := mkMap_head encoded
  have hfst := traceSegment_fst_eq (mkMap encoded) st line col hhead hv
  have hform : traceSegmentScratch (mkMap encoded) line col =
      if (mkMap encoded)._lineIndices.length - 1 ≤ line then none
      else if scratchIndex (mkMap encoded) line col < 0 then none
        else some (segmentify (mkMap encoded)._mappings
          (scratchIndex (mkMap encoded) line col).toNat) := rfl
  constructor
  · intro hrange
    rw [hfst, hform, if_pos hrange]
  · intro hrange hnonempty hfirst
    have hrange2 : ¬ ((mkMap encoded)._lineIndices.length - 1 ≤ line) := by omega
    have hadj : AdjSorted (mkMap encoded)._mappings (lineLowOf (mkMap encoded) line)
        (lineEndOf (mkMap encoded) line) :=
      (mkMap_line_range encoded line (by omega)).2
    rcases searchFrom_spec (mkMap encoded)._mappings col
      (lineLowOf (mkMap encoded) line) (lineEndOf (mkMap encoded) line) (-1) with
      ⟨hres, _⟩ | ⟨k, hk, hq, hres, _⟩
    · have hsc : scratchIndex (mkMap encoded) line col = -1 := hres
      rw [hfst, hform, if_neg hrange2, hsc, if_pos (by norm_num)]
    · exfalso
      have hle : (mkMap encoded)._mappings.getD (lineLowOf (mkMap encoded) line) 0
          ≤ (mkMap encoded)._mappings.getD
              (lineLowOf (mkMap encoded) line + 5 * k) 0 := by
        have := adjSorted_le _ _ _ hadj 0 k (by omega) hk
        simpa using this
      omega

/-- C6 witness: on the map of `"AAAA"` (one line, one record at column 0),
line 5 is out of range and reports not-found. -/
theorem c6_witness :
    (traceSegment (mkMap "AAAA") initialSearchState 5 0).1 = none :=
  (c6_boundary "AAAA" initialSearchState 5 0 (Or.inl rfl)).1 (by decide)

/-- C7 counterexample: an out-of-range query returns before the search, so
the cursor is not rewritten: after `traceSegment(5, 0)` on the one-line map
of `"AAAA"` the cached line is still 0, not 5, contradicting the claim that
the cursor is updated with the new line and column on every call. -/
theorem c7_counterexample :
    ((traceSegment (mkMap "AAAA") initialSearchState 5 0).2)._lastLine = 0 ∧
    (0 : Nat) ≠ 5 := by
  decide

/-- C7 amended: for every decoded map and every query sequence started from
the fresh cursor, the memoized `traceSegment` returns exactly the results
of the from-scratch full-search variant — memoization never changes
observable behaviour.  The cursor is rewritten with the new line, column
and result on every call that passes the line-range check (including
column-out-of-range not-found results); a query for a line outside the
decoded range returns not-found without touching the cursor. -/
theorem c7_amended :
    (∀ (encoded : String) (qs : List (Nat × Nat)),
      runMemoized (mkMap encoded) initialSearchState qs
        = qs.map (fun q => traceSegmentScratch (mkMap encoded) q.1 q.2)) ∧
    (∀ (encoded : String) (st : SearchState) (line col : Nat),
      (line < (mkMap encoded)._lineIndices.length - 1 →
        ((traceSegment (mkMap encoded) st line col).2)._lastLine = line ∧
        ((traceSegment (mkMap encoded) st line col).2)._lastColumn = col) ∧
      ((mkMap encoded)._lineIndices.length - 1 ≤ line →
        (traceSegment (mkMap encoded) st line col).2 = st)) := by
  constructor
  · intro encoded qs
    exact runMemoized_eq (mkMap encoded) (mkMap_head encoded) qs
      initialSearchState (Or.inl rfl)
  · intro encoded st line col
    constructor
    · intro hrange
      exact traceSegment_snd_in (mkMap encoded) st line col (by omega)
    · intro hrange
      exact traceSegment_snd_oor (mkMap encoded) st line col hrange

/-- C7 witness: concrete instances of both conjuncts on the map of
`"AAAA,SAAS;KACA"`. -/
theorem c7_witness :
    runMemoized (mkMap "AAAA,SAAS;KACA") initialSearchState [(0, 0), (0, 9)]
      = [traceSegmentScratch (mkMap "AAAA,SAAS;KACA") 0 0,
         traceSegmentScratch (mkMap "AAAA,SAAS;KACA") 0 9] ∧
    ((traceSegment (mkMap "AAAA,SAAS;KACA") initialSearchState 0 9).2)._lastLine = 0 ∧
    ((traceSegment (mkMap "AAAA,SAAS;KACA") initialSearchState 0 9).2)._lastColumn = 9 := by
  refine ⟨?_, ?_, ?_⟩
  · have h := c7_amended.1 "AAAA,SAAS;KACA" [(0, 0), (0, 9)]
    simpa using h
  · exact ((c7_amended.2 "AAAA,SAAS;KACA" initialSearchState 0 9).1 (by decide)).1
  · exact ((c7_amended.2 "AAAA,SAAS;KACA" initialSearchState 0 9).1 (by decide)).2

/-- C8: the concrete scenario of the spec: `"AAAA,SAAS;KACA"` decodes to
two lines — line 0 with mapped segments at generated columns 0 and 9,
line 1 with one segment at column 5; `traceSegment(0, 9)` returns the
second segment of line 0 with the +1 bias removed from its source fields;
`traceSegment(1, 2)` and `traceSegment(5, 0)` report not-found. -/
theorem c8_concrete_scenario :
    decodedMappings (mkMap "AAAA,SAAS;KACA")
      = [[[0, 0, 0, 0], [9, 0, 0, 9]], [[5, 0, 1, 9]]] ∧
    (traceSegment (mkMap "AAAA,SAAS;KACA") initialSearchState 0 9).1
      = some [9, 0, 0, 9] ∧
    (traceSegment (mkMap "AAAA,SAAS;KACA") initialSearchState 1 2).1 = none ∧
    (traceSegment (mkMap "AAAA,SAAS;KACA") initialSearchState 5 0).1 = none := by
  decide

/-- C9: materialization arity follows the absence sentinels: a zero field 1
yields the one-tuple `[generatedColumn]`; otherwise a zero field 4 yields
the four-tuple and a non-zero field 4 the five-tuple, with the +1 bias
subtracted (exact integer subtraction, as the source's number arithmetic)
from exactly the present fields 1–4 and never from the generated column
(field 0 is returned unchanged). -/
theorem c9_segmentify_arity (mappings : List Nat) (i : Nat) :
    (mappings.getD (i + 1) 0 = 0 →
      segmentify mappings i = [(mappings.getD i 0 : Int)]) ∧
    (mappings.getD (i + 1) 0 ≠ 0 → mappings.getD (i + 4) 0 = 0 →
      segmentify mappings i =
        [(mappings.getD i 0 : Int), (mappings.getD (i + 1) 0 : Int) - 1,
         (mappings.getD (i + 2) 0 : Int) - 1,
         (mappings.getD (i + 3) 0 : Int) - 1]) ∧
    (mappings.getD (i + 1) 0 ≠ 0 → mappings.getD (i + 4) 0 ≠ 0 →
      segmentify mappings i =
        [(mappings.getD i 0 : Int), (mappings.getD (i + 1) 0 : Int) - 1,
         (mappings.getD (i + 2) 0 : Int) - 1,
         (mappings.getD (i + 3) 0 : Int) - 1,
         (mappings.getD (i + 4) 0 : Int) - 1]) := by
  refine ⟨?_, ?_, ?_⟩
  · intro h1
    rw [segmentify, if_pos h1]
  · intro h1 h4
    rw [segmentify, if_neg h1, if_pos h4]
  · intro h1 h4
    rw [segmentify, if_neg h1, if_neg h4]

/-- C9 witness: the packed record `[0, 1, 0, 1, 0]` — produced by the input
`"AADA"`, whose biased sourceLine accumulator wraps to a stored 0 —
materializes to the four-tuple `[0, 0, -1, 0]`: the present-but-zero
field 2 yields `-1`, as in the source. -/
theorem c9_witness :
    (mkMap "AADA")._mappings = [0, 1, 0, 1, 0] ∧
    segmentify [0, 1, 0, 1, 0] 0 = [0, 0, -1, 0] := by
  refine ⟨by decide, ?_⟩
  have h := (c9_segmentify_arity [0, 1, 0, 1, 0] 0).2.1 (by decide) (by decide)
  rw [h]
  decide

/-- C10: the empty mapping string yields one empty generated line: the
offset table is `[0, 0]`, the buffer is empty, `decodedMappings` returns a
single empty sequence, and `traceSegment(0, column)` reports not-found for
every column from any cursor state. -/
theorem c10_empty_string :
    (mkMap "")._lineIndices = [0, 0] ∧
    (mkMap "")._mappings = [] ∧
    decodedMappings (mkMap "") = [[]] ∧
    ∀ (st : SearchState) (col : Nat),
      (traceSegment (mkMap "") st 0 col).1 = none := by
  refine ⟨by decide, by decide, by decide, ?_⟩
  intro st col
  have h1 : (mkMap "")._lineIndices = [0, 0] := by decide
  simp [traceSegment, h1, memoizedBinarySearch, searchFrom, searchGo]

end TraceMapping
